import Mathlib

/-!
Verification of the Sudoku solving engine in `Code/PeterNorvigAlgorithm.py`
(class `PeterNorvigAlgorithm`).

The Python code works on a dict `values` mapping each square name (a
two-character string such as "A1") to a string of candidate digits
(such as "12349").  We embed:

* squares as Lean `String`s built by `crossProduct`, exactly as the source
  builds them from the row letters and column digits;
* the candidate string for a square as a `List Char`;
* the mutable dict as a total function `String → List Char` that is updated
  functionally (`updateValues`); `values.copy()` in Python becomes the
  identity because our maps are immutable values;
* Python's `False` result (contradiction) as `none`, a values dict as `some`;
* the unbounded recursion of the propagation routines as structural
  recursion on an explicit fuel parameter: every call (including each step
  of the short-circuiting folds) costs one unit of fuel, and exhausted fuel
  returns `none` (an artificial failure that a large enough fuel avoids).
-/

namespace Norvig

/-- The valid digits of the sudoku grid, source line 43 (`self.digits = '123456789'`). -/
def digits : List Char := "123456789".toList

/-- Row letters, source line 44 (`self.rows = 'ABCDEFGHI'`). -/
def rows : List Char := "ABCDEFGHI".toList

/-- Column digits, source line 45 (`self.cols = self.digits`). -/
def cols : List Char := digits

/-- Source `crossProduct(Rows, Cols)`: the list `[row + col for row in Rows for col in Cols]`. -/
def crossProduct (Rows Cols : List Char) : List String :=
  Rows.flatMap (fun row => Cols.map (fun col => String.mk [row, col]))

/-- The 81 squares, source line 48. -/
def squares : List String := crossProduct rows cols

/-- The 27 units, source lines 51-54: 9 columns, 9 rows, 9 boxes. -/
def unitlist : List (List String) :=
  (cols.map fun col => crossProduct rows [col]) ++
  (rows.map fun row => crossProduct [row] cols) ++
  (["ABC".toList, "DEF".toList, "GHI".toList].flatMap fun rs =>
    ["123".toList, "456".toList, "789".toList].map fun cs => crossProduct rs cs)

/-- Source lines 57-58: the units containing a given square. -/
def units (square : String) : List (List String) :=
  unitlist.filter (fun u => square ∈ u)

/-- Source lines 61-62: `set(sum(self.units[square], [])) - set([square])`.
The Python set is modelled as a duplicate-free list in first-occurrence
order. -/
def peers (square : String) : List String :=
  ((units square).flatten).eraseDups.filter (fun s => s ≠ square)

/-- The working state of a solve attempt: the dict of candidate strings,
`values` in the source.  Total function; only the 81 squares are ever
consulted. -/
def Values : Type := String → List Char

/-- Functional update of one entry of the dict (`values[square] = ...`). -/
def updateValues (values : Values) (square : String) (l : List Char) : Values :=
  fun t => if t = square then l else values t

/-- Source line 78: `dict((square, self.digits) for square in self.squares)` —
every square can initially be any digit. -/
def initialValues : Values := fun _ => digits

mutual

/-- Source `assignPosibleValues(values, square, digit)` (lines 99-120), the
spec's Assign; also the target of the `self.assign` calls at source lines
188 and 211 (`assign` is resolved through the `Algorithm` base class, which
is not in the repository; the spec describes Assign as exactly this
operation).  Eliminates all other values except `digit` from
`values[square]` and propagates. -/
def assignPosibleValues : Nat → Values → String → Char → Option Values
  | 0, _, _, _ => none
  | fuel+1, values, square, digit =>
    let other_values := (values square).filter (fun c => c ≠ digit)
    elimDigits fuel values square other_values

/-- The short-circuiting `all(self.eliminate(values, square, nextDigit) for
nextDigit in other_values)` of `assignPosibleValues`, with the in-place
mutation made explicit: each successful elimination hands its updated dict
to the next one, and the first failure aborts. -/
def elimDigits : Nat → Values → String → List Char → Option Values
  | _, values, _, [] => some values
  | 0, _, _, _ :: _ => none
  | fuel+1, values, square, d :: ds =>
    match eliminate fuel values square d with
    | none => none
    | some v => elimDigits fuel v square ds

/-- Source `eliminate(values, square, digit)` (lines 122-142): remove `digit`
from `values[square]`; `str.replace(digit, '')` removes every occurrence,
modelled by `List.filter`.  Then run the two propagation checks. -/
def eliminate : Nat → Values → String → Char → Option Values
  | 0, _, _, _ => none
  | fuel+1, values, square, digit =>
    if digit ∈ values square then
      let values2 := updateValues values square
        ((values square).filter (fun c => c ≠ digit))
      match reviewNextDigit fuel values2 square with
      | none => none
      | some values3 => reviewUnit fuel values3 square digit
    else
      some values

/-- Source `reviewNextDigit(values, square)` (lines 144-165): if
`values[square]` was emptied, contradiction; if it was reduced to one digit,
eliminate that digit from all peers. -/
def reviewNextDigit : Nat → Values → String → Option Values
  | 0, _, _ => none
  | fuel+1, values, square =>
    match values square with
    | [] => none
    | [nextDigit] => elimPeers fuel values (peers square) nextDigit
    | _ :: _ :: _ => some values

/-- The short-circuiting `all(self.eliminate(values, nextSquare, nextDigit)
for nextSquare in self.peers[square])` of `reviewNextDigit`, state-passing
as in `elimDigits`. -/
def elimPeers : Nat → Values → List String → Char → Option Values
  | _, values, [], _ => some values
  | 0, _, _ :: _, _ => none
  | fuel+1, values, p :: ps, digit =>
    match eliminate fuel values p digit with
    | none => none
    | some v => elimPeers fuel v ps digit

/-- Source `reviewUnit(values, square, digit)` (lines 167-190): walk the
units of `square`. -/
def reviewUnit : Nat → Values → String → Char → Option Values
  | 0, _, _, _ => none
  | fuel+1, values, square, digit => reviewUnitGo fuel values (units square) digit

/-- The `for unit in self.units[square]` loop body of `reviewUnit`:
`dplaces` is the list of squares of the unit whose candidates still contain
`digit`; no place is a contradiction, exactly one place forces an Assign. -/
def reviewUnitGo : Nat → Values → List (List String) → Char → Option Values
  | _, values, [], _ => some values
  | 0, _, _ :: _, _ => none
  | fuel+1, values, u :: rest, digit =>
    let dplaces := u.filter (fun sq => digit ∈ values sq)
    match dplaces with
    | [] => none
    | [p] =>
      match assignPosibleValues fuel values p digit with
      | none => none
      | some v => reviewUnitGo fuel v rest digit
    | _ :: _ :: _ => reviewUnitGo fuel values rest digit

end

/-- Source `getGridValues(grid)` (lines 84-97): keep only the characters in
`digits` or `'0.'`, assert that exactly 81 remain (the failed assert is the
spec's ParseError, modelled as `none`), and zip with the squares. -/
def getGridValues (grid : List Char) : Option (List (String × Char)) :=
  let chars := grid.filter (fun c => c ∈ digits ∨ c ∈ ['0', '.'])
  if chars.length = 81 then some (squares.zip chars) else none

/-- The `for square, digit in self.getGridValues(grid).items()` loop of
`parseGrid`: assign each given, failing if any assignment fails. -/
def parseGo (fuel : Nat) : Values → List (String × Char) → Option Values
  | values, [] => some values
  | values, (square, digit) :: rest =>
    if digit ∈ digits then
      match assignPosibleValues fuel values square digit with
      | none => none
      | some v => parseGo fuel v rest
    else
      parseGo fuel values rest

/-- Source `parseGrid(grid)` (lines 67-82): start from `initialValues` and
assign the givens; `False` on contradiction becomes `none`. -/
def parseGrid (fuel : Nat) (grid : List Char) : Option Values :=
  match getGridValues grid with
  | none => none
  | some gridValues => parseGo fuel initialValues gridValues

/-- Source `validValues(seq)` (lines 214-223): the first element of the
sequence that is not `False`. -/
def validValues : List (Option Values) → Option Values
  | [] => none
  | element :: rest =>
    match element with
    | some v => some v
    | none => validValues rest

/-- The `min((len(values[square]), square) for square in self.squares if
len(values[square]) > 1)` of `deepSearch`: the lexicographic minimum of the
(length, square) pairs over the undetermined squares, `none` when there is
no such square (where Python `min` would raise `ValueError`). -/
def minStep (values : Values) (acc : Option (Nat × String)) (s : String) :
    Option (Nat × String) :=
  if (values s).length > 1 then
    match acc with
    | none => some ((values s).length, s)
    | some (n, t) =>
      if (values s).length < n ∨ ((values s).length = n ∧ s < t) then
        some ((values s).length, s)
      else
        some (n, t)
  else acc

def minCandidate (values : Values) : Option (Nat × String) :=
  squares.foldl (minStep values) none

mutual

/-- Source `deepSearch(values)` (lines 192-212): depth-first search.  The
`values.copy()` of the source is the identity on our immutable maps.  The
generator argument of `validValues` is evaluated by `searchTrials`, which
preserves the generator's short-circuit behaviour. -/
def deepSearch : Nat → Option Values → Option Values
  | 0, _ => none
  | _+1, none => none                                          -- failed earlier
  | fuel+1, some values =>
    if squares.all (fun square => (values square).length == 1) then
      some values                                                    -- solved
    else
      match minCandidate values with
      | none => none           -- unreachable on the solve path (Python raises)
      | some (_, square) => searchTrials fuel values square (values square)

/-- The generator `(self.deepSearch(self.assign(values.copy(), square,
digit)) for digit in values[square])` consumed lazily by `validValues`:
try the digits in candidate order, returning the first success. -/
def searchTrials : Nat → Values → String → List Char → Option Values
  | _, _, _, [] => none
  | 0, _, _, _ :: _ => none
  | fuel+1, values, square, digit :: ds =>
    match deepSearch fuel (assignPosibleValues fuel values square digit) with
    | some r => some r
    | none => searchTrials fuel values square ds

end

/-- Source `solve(grid)` (lines 250-257). -/
def solve (fuel : Nat) (grid : List Char) : Option Values :=
  deepSearch fuel (parseGrid fuel grid)

/-- Source `getMatrix(values)` (lines 236-248), the result-extraction step of
the per-puzzle pipeline `timeSolve`.  On a dict it collects the candidate
strings in sorted key order (the matrix conversion of the absent
`Algorithm.convertStringToMatrix` is out of the core spec's scope).  When
`solve` returned `False`, the source calls `sorted(dict.items(False))`,
which raises a `TypeError` — an unrecoverable abort, modelled as
`Except.error`. -/
def getMatrix : Option Values → Except String (List (List Char))
  | none => Except.error "TypeError: descriptor items requires a dict"
  | some values => Except.ok ((squares.mergeSort (fun a b => a ≤ b)).map values)

end Norvig

namespace Norvig

/-! ### Derived notions used by the specification claims -/

/-- Candidate sets only shrink: every square's candidate list in `w` is a
sublist (order-preserving subsequence) of its list in `v`. -/
def Shrinks (v w : Values) : Prop := ∀ t, (w t).Sublist (v t)

/-- No square's candidate list is emptied. -/
def Keeps (v w : Values) : Prop := ∀ t, v t ≠ [] → w t ≠ []

/-- A successful propagation step both shrinks candidate lists and keeps
nonempty lists nonempty. -/
def Tightens (v w : Values) : Prop := Shrinks v w ∧ Keeps v w

/-- Every square outside the list `D` that is determined (single candidate)
has had its digit eliminated from all of its peers.  `cleanExcept [] v` is
the consistency invariant of a propagated map. -/
def cleanExcept (D : List String) (v : Values) : Prop :=
  ∀ q, q ∉ D → ∀ e, v q = [e] → ∀ p ∈ peers q, e ∉ v p

/-- Every one of the 81 squares is determined. -/
def AllSingle (v : Values) : Prop := ∀ s ∈ squares, (v s).length = 1

/-- How many squares of the unit `u` are determined to exactly the digit
`d` in the map `m`. -/
def occurrences (m : Values) (u : List String) (d : Char) : Nat :=
  (u.filter (fun s => m s == [d])).length

/-- The validity contract of a solved output: if `solve` produced a map, all
81 squares are determined to a single digit 1-9 and each of the 27 units
contains each digit exactly once; a failed solve carries no obligation. -/
def solvedOk : Option Values → Prop
  | none => True
  | some m =>
    (∀ s ∈ squares, ∃ e ∈ digits, m s = [e]) ∧
    (∀ u ∈ unitlist, ∀ d ∈ digits, occurrences m u d = 1)

/-! ### Concrete inputs used by witnesses and counterexamples -/

/-- The all-blank 81-character grid. -/
def dotsGrid : List Char := List.replicate 81 '.'

/-- 82 characters: 81 blanks plus one character outside the accepted
alphabet. -/
def overlongGrid : List Char := List.replicate 81 '.' ++ ['X']

/-- Only 80 accepted characters. -/
def shortGrid : List Char := List.replicate 80 '.'

/-- A map whose square A1 has an empty candidate list. -/
def emptyA1Values : Values := updateValues initialValues "A1" []

/-- A map whose square A1 has one candidate. -/
def singleA1Values : Values := updateValues initialValues "A1" ['5']

/-- A map in which A1 holds two candidates, the digit 1 is absent from all
peers of A1, and every other square holds two or more candidates: an
Assign of 1 to A1 then triggers no further cascade. -/
def quietValues : Values := fun t =>
  if t = "A1" then ['1', '2']
  else if t ∈ peers "A1" then digits.filter (fun c => c ≠ '1')
  else digits

/-- The first unit of `unitlist`: the column of the squares A1, B1, ..., I1. -/
def colUnit : List String := crossProduct rows ['1']

/-- A map with the digit 1 removed from every square of `colUnit`. -/
def colNoOneValues : Values :=
  colUnit.foldl (fun v s => updateValues v s (digits.filter (fun c => c ≠ '1'))) initialValues

/-- A map with the digit 1 removed from every square of `colUnit` except A1. -/
def colTailNoOneValues : Values :=
  (colUnit.drop 1).foldl
    (fun v s => updateValues v s (digits.filter (fun c => c ≠ '1'))) initialValues

end Norvig
namespace Norvig

/-! ### Topology facts (all decidable computations on the fixed board) -/

theorem squares_length : squares.length = 81 := by decide

theorem unitlist_length : unitlist.length = 27 := by decide

theorem unit_sub_squares : ∀ u ∈ unitlist, ∀ s ∈ u, s ∈ squares := by decide

theorem unit_card : ∀ u ∈ unitlist, u.length = 9 ∧ u.Nodup := by decide

theorem digits_nodup : digits.Nodup := by decide

theorem digits_length : digits.length = 9 := by decide

end Norvig
namespace Norvig

theorem unit_peers : ∀ u ∈ unitlist, ∀ s ∈ u, ∀ t ∈ u, s ≠ t → t ∈ peers s := by decide

end Norvig
namespace Norvig

/-! ### Elementary lemmas about the state representation -/

theorem updateValues_apply (v : Values) (s : String) (l : List Char) (t : String) :
    updateValues v s l t = if t = s then l else v t := rfl

theorem tightens_refl (v : Values) : Tightens v v :=
  ⟨fun _ => List.Sublist.refl _, fun _ h => h⟩

theorem tightens_trans {u v w : Values} (h₁ : Tightens u v) (h₂ : Tightens v w) :
    Tightens u w :=
  ⟨fun t => (h₂.1 t).trans (h₁.1 t), fun t h => h₂.2 t (h₁.2 t h)⟩

theorem shrinks_update_filter (v : Values) (s : String) (p : Char → Bool) :
    Shrinks v (updateValues v s ((v s).filter p)) := by
  intro t
  rw [updateValues_apply]
  by_cases h : t = s
  · subst h; simp [List.filter_sublist]
  · simp [h]

/-- A successful `reviewNextDigit` implies the inspected square was not
emptied by the preceding removal. -/
theorem rnd_some_ne {fuel : Nat} {v : Values} {s : String} {w : Values}
    (h : reviewNextDigit fuel v s = some w) : v s ≠ [] := by
  cases fuel with
  | zero => simp [reviewNextDigit] at h
  | succ n =>
    intro hempty
    rw [reviewNextDigit, hempty] at h
    simp at h

/-! ### Monotonicity: successful propagation only shrinks candidate lists
and never leaves an emptied square behind -/

theorem tightens_all : ∀ fuel : Nat,
    (∀ v s d w, assignPosibleValues fuel v s d = some w → Tightens v w) ∧
    (∀ v s ds w, elimDigits fuel v s ds = some w → Tightens v w) ∧
    (∀ v s d w, eliminate fuel v s d = some w → Tightens v w) ∧
    (∀ v s w, reviewNextDigit fuel v s = some w → Tightens v w) ∧
    (∀ v ps d w, elimPeers fuel v ps d = some w → Tightens v w) ∧
    (∀ v s d w, reviewUnit fuel v s d = some w → Tightens v w) ∧
    (∀ v us d w, reviewUnitGo fuel v us d = some w → Tightens v w) := by
  intro fuel
  induction fuel with
  | zero =>
    refine ⟨?_, ?_, ?_, ?_, ?_, ?_, ?_⟩
    · intro v s d w h; simp [assignPosibleValues] at h
    · intro v s ds w h
      cases ds with
      | nil => rw [elimDigits] at h; cases h; exact tightens_refl v
      | cons d ds => simp [elimDigits] at h
    · intro v s d w h; simp [eliminate] at h
    · intro v s w h; simp [reviewNextDigit] at h
    · intro v ps d w h
      cases ps with
      | nil => rw [elimPeers] at h; cases h; exact tightens_refl v
      | cons p ps => simp [elimPeers] at h
    · intro v s d w h; simp [reviewUnit] at h
    · intro v us d w h
      cases us with
      | nil => rw [reviewUnitGo] at h; cases h; exact tightens_refl v
      | cons u us => simp [reviewUnitGo] at h
  | succ n ih =>
    obtain ⟨ihA, ihED, ihE, ihR, ihEP, ihU, ihUG⟩ := ih
    refine ⟨?_, ?_, ?_, ?_, ?_, ?_, ?_⟩
    · -- assignPosibleValues
      intro v s d w h
      rw [assignPosibleValues] at h
      exact ihED _ _ _ _ h
    · -- elimDigits
      intro v s ds w h
      cases ds with
      | nil => rw [elimDigits] at h; cases h; exact tightens_refl v
      | cons d ds =>
        rw [elimDigits] at h
        cases he : eliminate n v s d with
        | none => rw [he] at h; simp at h
        | some v1 =>
          rw [he] at h
          exact tightens_trans (ihE _ _ _ _ he) (ihED _ _ _ _ h)
    · -- eliminate
      intro v s d w h
      rw [eliminate] at h
      by_cases hd : d ∈ v s
      · rw [if_pos hd] at h
        simp only [] at h
        cases hr : reviewNextDigit n (updateValues v s ((v s).filter (fun c => c ≠ d))) s with
        | none => rw [hr] at h; simp at h
        | some v3 =>
          rw [hr] at h
          have t1 : Shrinks v (updateValues v s ((v s).filter (fun c => c ≠ d))) :=
            shrinks_update_filter v s _
          have t2 := ihR _ _ _ hr
          have t3 := ihU _ _ _ _ h
          constructor
          · intro t
            exact ((t3.1 t).trans (t2.1 t)).trans (t1 t)
          · intro t ht
            have h2 : updateValues v s ((v s).filter (fun c => c ≠ d)) t ≠ [] := by
              rw [updateValues_apply]
              by_cases hts : t = s
              · rw [if_pos hts]
                have := rnd_some_ne hr
                rw [updateValues_apply, if_pos rfl] at this
                exact this
              · rw [if_neg hts]; exact ht
            exact t3.2 t (t2.2 t h2)
      · rw [if_neg hd] at h
        cases h
        exact tightens_refl v
    · -- reviewNextDigit
      intro v s w h
      rw [reviewNextDigit] at h
      cases hvs : v s with
      | nil => rw [hvs] at h; simp at h
      | cons e rest =>
        cases rest with
        | nil =>
          rw [hvs] at h
          exact ihEP _ _ _ _ h
        | cons y ys =>
          rw [hvs] at h
          cases h
          exact tightens_refl v
    · -- elimPeers
      intro v ps d w h
      cases ps with
      | nil => rw [elimPeers] at h; cases h; exact tightens_refl v
      | cons p ps =>
        rw [elimPeers] at h
        cases he : eliminate n v p d with
        | none => rw [he] at h; simp at h
        | some v1 =>
          rw [he] at h
          exact tightens_trans (ihE _ _ _ _ he) (ihEP _ _ _ _ h)
    · -- reviewUnit
      intro v s d w h
      rw [reviewUnit] at h
      exact ihUG _ _ _ _ h
    · -- reviewUnitGo
      intro v us d w h
      cases us with
      | nil => rw [reviewUnitGo] at h; cases h; exact tightens_refl v
      | cons u rest =>
        rw [reviewUnitGo] at h
        cases hdp : u.filter (fun sq => decide (d ∈ v sq)) with
        | nil => simp only [hdp] at h; exact absurd h (by simp)
        | cons p others =>
          cases others with
          | nil =>
            simp only [hdp] at h
            cases ha : assignPosibleValues n v p d with
            | none => rw [ha] at h; simp at h
            | some v1 =>
              rw [ha] at h
              exact tightens_trans (ihA _ _ _ _ ha) (ihUG _ _ _ _ h)
          | cons q others2 =>
            simp only [hdp] at h
            exact ihUG _ _ _ _ h

end Norvig
namespace Norvig

theorem assign_tightens {fuel : Nat} {v : Values} {s : String} {d : Char} {w : Values}
    (h : assignPosibleValues fuel v s d = some w) : Tightens v w :=
  (tightens_all fuel).1 v s d w h

theorem elimDigits_tightens {fuel : Nat} {v : Values} {s : String} {ds : List Char} {w : Values}
    (h : elimDigits fuel v s ds = some w) : Tightens v w :=
  (tightens_all fuel).2.1 v s ds w h

theorem eliminate_tightens {fuel : Nat} {v : Values} {s : String} {d : Char} {w : Values}
    (h : eliminate fuel v s d = some w) : Tightens v w :=
  (tightens_all fuel).2.2.1 v s d w h

theorem rnd_tightens {fuel : Nat} {v : Values} {s : String} {w : Values}
    (h : reviewNextDigit fuel v s = some w) : Tightens v w :=
  (tightens_all fuel).2.2.2.1 v s w h

theorem elimPeers_tightens {fuel : Nat} {v : Values} {ps : List String} {d : Char} {w : Values}
    (h : elimPeers fuel v ps d = some w) : Tightens v w :=
  (tightens_all fuel).2.2.2.2.1 v ps d w h

theorem reviewUnit_tightens {fuel : Nat} {v : Values} {s : String} {d : Char} {w : Values}
    (h : reviewUnit fuel v s d = some w) : Tightens v w :=
  (tightens_all fuel).2.2.2.2.2.1 v s d w h

theorem reviewUnitGo_tightens {fuel : Nat} {v : Values} {us : List (List String)} {d : Char}
    {w : Values} (h : reviewUnitGo fuel v us d = some w) : Tightens v w :=
  (tightens_all fuel).2.2.2.2.2.2 v us d w h

/-- A successful Eliminate really removes the digit from the square. -/
theorem eliminate_not_mem {fuel : Nat} {v : Values} {s : String} {d : Char} {w : Values}
    (h : eliminate fuel v s d = some w) : d ∉ w s := by
  cases fuel with
  | zero => simp [eliminate] at h
  | succ n =>
    rw [eliminate] at h
    by_cases hd : d ∈ v s
    · rw [if_pos hd] at h
      simp only [] at h
      cases hr : reviewNextDigit n (updateValues v s ((v s).filter (fun c => c ≠ d))) s with
      | none => rw [hr] at h; simp at h
      | some v3 =>
        rw [hr] at h
        intro hmem
        have h1 : (w s).Sublist (v3 s) := (reviewUnit_tightens h).1 s
        have h2 : (v3 s).Sublist ((v s).filter (fun c => c ≠ d)) := by
          have := (rnd_tightens hr).1 s
          rwa [updateValues_apply, if_pos rfl] at this
        have : d ∈ (v s).filter (fun c => c ≠ d) := h2.subset (h1.subset hmem)
        simp at this
    · rw [if_neg hd] at h
      cases h
      exact hd

/-- A successful run of Assign's elimination loop leaves none of the listed
digits among the square's candidates. -/
theorem elimDigits_post {ds : List Char} : ∀ {fuel : Nat} {v : Values} {s : String} {w : Values},
    elimDigits fuel v s ds = some w → ∀ x ∈ ds, x ∉ w s := by
  induction ds with
  | nil => intro fuel v s w h x hx; simp at hx
  | cons d ds ih =>
    intro fuel v s w h x hx
    cases fuel with
    | zero => simp [elimDigits] at h
    | succ n =>
      rw [elimDigits] at h
      cases he : eliminate n v s d with
      | none => rw [he] at h; simp at h
      | some v1 =>
        rw [he] at h
        rcases List.mem_cons.mp hx with hxd | hxds
        · subst hxd
          intro hmem
          exact eliminate_not_mem he ((elimDigits_tightens h).1 s |>.subset hmem)
        · exact ih h x hxds

/-- A successful run of the peer-elimination loop leaves the digit absent
from every listed peer. -/
theorem elimPeers_post {ps : List String} : ∀ {fuel : Nat} {v : Values} {d : Char} {w : Values},
    elimPeers fuel v ps d = some w → ∀ p ∈ ps, d ∉ w p := by
  induction ps with
  | nil => intro fuel v d w h p hp; simp at hp
  | cons q ps ih =>
    intro fuel v d w h p hp
    cases fuel with
    | zero => simp [elimPeers] at h
    | succ n =>
      rw [elimPeers] at h
      cases he : eliminate n v q d with
      | none => rw [he] at h; simp at h
      | some v1 =>
        rw [he] at h
        rcases List.mem_cons.mp hp with hpq | hps
        · subst hpq
          intro hmem
          exact eliminate_not_mem he ((elimPeers_tightens h).1 p |>.subset hmem)
        · exact ih h p hps

/-- The only nonempty sublist of a singleton is the singleton itself. -/
theorem sublist_single {l : List Char} {e : Char} (h : l.Sublist [e]) (hne : l ≠ []) :
    l = [e] := by
  cases h with
  | cons a h2 => exact absurd (List.sublist_nil.mp h2) hne
  | cons₂ a h2 => rw [List.sublist_nil.mp h2]

end Norvig
namespace Norvig

/-! ### The consistency invariant: a determined square outside the dirty
list has had its digit removed from all its peers, and every propagation
routine restores it -/

theorem clean_all : ∀ fuel : Nat,
    (∀ D v s d w, cleanExcept D v → assignPosibleValues fuel v s d = some w →
      cleanExcept D w) ∧
    (∀ D v s ds w, cleanExcept D v → elimDigits fuel v s ds = some w →
      cleanExcept D w) ∧
    (∀ D v s d w, cleanExcept D v → eliminate fuel v s d = some w →
      cleanExcept D w) ∧
    (∀ D v s w, cleanExcept (s :: D) v → reviewNextDigit fuel v s = some w →
      cleanExcept D w) ∧
    (∀ D v ps d w, cleanExcept D v → elimPeers fuel v ps d = some w →
      cleanExcept D w) ∧
    (∀ D v s d w, cleanExcept D v → reviewUnit fuel v s d = some w →
      cleanExcept D w) ∧
    (∀ D v us d w, cleanExcept D v → reviewUnitGo fuel v us d = some w →
      cleanExcept D w) := by
  intro fuel
  induction fuel with
  | zero =>
    refine ⟨?_, ?_, ?_, ?_, ?_, ?_, ?_⟩
    · intro D v s d w _ h; simp [assignPosibleValues] at h
    · intro D v s ds w hc h
      cases ds with
      | nil => rw [elimDigits] at h; cases h; exact hc
      | cons d ds => simp [elimDigits] at h
    · intro D v s d w _ h; simp [eliminate] at h
    · intro D v s w _ h; simp [reviewNextDigit] at h
    · intro D v ps d w hc h
      cases ps with
      | nil => rw [elimPeers] at h; cases h; exact hc
      | cons p ps => simp [elimPeers] at h
    · intro D v s d w _ h; simp [reviewUnit] at h
    · intro D v us d w hc h
      cases us with
      | nil => rw [reviewUnitGo] at h; cases h; exact hc
      | cons u us => simp [reviewUnitGo] at h
  | succ n ih =>
    obtain ⟨ihA, ihED, ihE, ihR, ihEP, ihU, ihUG⟩ := ih
    refine ⟨?_, ?_, ?_, ?_, ?_, ?_, ?_⟩
    · -- assignPosibleValues
      intro D v s d w hc h
      rw [assignPosibleValues] at h
      exact ihED D _ _ _ _ hc h
    · -- elimDigits
      intro D v s ds w hc h
      cases ds with
      | nil => rw [elimDigits] at h; cases h; exact hc
      | cons d ds =>
        rw [elimDigits] at h
        cases he : eliminate n v s d with
        | none => rw [he] at h; simp at h
        | some v1 =>
          rw [he] at h
          exact ihED D _ _ _ _ (ihE D _ _ _ _ hc he) h
    · -- eliminate
      intro D v s d w hc h
      rw [eliminate] at h
      by_cases hd : d ∈ v s
      · rw [if_pos hd] at h
        simp only [] at h
        cases hr : reviewNextDigit n (updateValues v s ((v s).filter (fun c => c ≠ d))) s with
        | none => rw [hr] at h; simp at h
        | some v3 =>
          rw [hr] at h
          have hc2 : cleanExcept (s :: D) (updateValues v s ((v s).filter (fun c => c ≠ d))) := by
            intro q hq e hqe p hp hmem
            have hqs : q ≠ s := fun hqs => hq (hqs ▸ List.mem_cons_self s D)
            have hqD : q ∉ D := fun hqD => hq (List.mem_cons_of_mem s hqD)
            rw [updateValues_apply, if_neg hqs] at hqe
            have hvp : e ∈ v p := (shrinks_update_filter v s _ p).subset hmem
            exact hc q hqD e hqe p hp hvp
          exact ihU D _ _ _ _ (ihR D _ _ _ hc2 hr) h
      · rw [if_neg hd] at h
        cases h
        exact hc
    · -- reviewNextDigit
      intro D v s w hc h
      rw [reviewNextDigit] at h
      cases hvs : v s with
      | nil => rw [hvs] at h; simp at h
      | cons e rest =>
        cases rest with
        | nil =>
          rw [hvs] at h
          have hclean : cleanExcept (s :: D) w := ihEP (s :: D) _ _ _ _ hc h
          have hpost : ∀ p ∈ peers s, e ∉ w p := elimPeers_post h
          have hws : w s = [e] := by
            have hsub : (w s).Sublist (v s) := (elimPeers_tightens h).1 s
            have hne : w s ≠ [] := (elimPeers_tightens h).2 s (by rw [hvs]; simp)
            rw [hvs] at hsub
            exact sublist_single hsub hne
          intro q hq f hqf p hp hmem
          by_cases hqs : q = s
          · subst hqs
            rw [hws] at hqf
            cases hqf
            exact hpost p hp hmem
          · exact hclean q (by simp [hqs, hq]) f hqf p hp hmem
        | cons y ys =>
          rw [hvs] at h
          cases h
          intro q hq f hqf p hp hmem
          by_cases hqs : q = s
          · subst hqs
            rw [hvs] at hqf
            simp at hqf
          · exact hc q (by simp [hqs, hq]) f hqf p hp hmem
    · -- elimPeers
      intro D v ps d w hc h
      cases ps with
      | nil => rw [elimPeers] at h; cases h; exact hc
      | cons p ps =>
        rw [elimPeers] at h
        cases he : eliminate n v p d with
        | none => rw [he] at h; simp at h
        | some v1 =>
          rw [he] at h
          exact ihEP D _ _ _ _ (ihE D _ _ _ _ hc he) h
    · -- reviewUnit
      intro D v s d w hc h
      rw [reviewUnit] at h
      exact ihUG D _ _ _ _ hc h
    · -- reviewUnitGo
      intro D v us d w hc h
      cases us with
      | nil => rw [reviewUnitGo] at h; cases h; exact hc
      | cons u rest =>
        rw [reviewUnitGo] at h
        cases hdp : u.filter (fun sq => decide (d ∈ v sq)) with
        | nil => simp only [hdp] at h; exact absurd h (by simp)
        | cons p others =>
          cases others with
          | nil =>
            simp only [hdp] at h
            cases ha : assignPosibleValues n v p d with
            | none => rw [ha] at h; simp at h
            | some v1 =>
              rw [ha] at h
              exact ihUG D _ _ _ _ (ihA D _ _ _ _ hc ha) h
          | cons q others2 =>
            simp only [hdp] at h
            exact ihUG D _ _ _ _ hc h

end Norvig
namespace Norvig

theorem assign_clean {fuel : Nat} {D : List String} {v : Values} {s : String} {d : Char}
    {w : Values} (hc : cleanExcept D v) (h : assignPosibleValues fuel v s d = some w) :
    cleanExcept D w :=
  (clean_all fuel).1 D v s d w hc h

/-- The fresh map in which every square allows all nine digits is
consistent: no square is determined yet. -/
theorem initial_clean : cleanExcept [] initialValues := by
  intro q hq e hqe p hp hmem
  have := congrArg List.length hqe
  simp [initialValues, digits] at this

theorem initial_sub (t : String) : initialValues t = digits := rfl

/-- The given-assignment loop of the parser preserves consistency and only
tightens the map. -/
theorem parseGo_sound {gvs : List (String × Char)} : ∀ {fuel : Nat} {v w : Values},
    parseGo fuel v gvs = some w → cleanExcept [] v →
    cleanExcept [] w ∧ Tightens v w := by
  induction gvs with
  | nil =>
    intro fuel v w h hc
    rw [parseGo] at h
    cases h
    exact ⟨hc, tightens_refl v⟩
  | cons sd rest ih =>
    intro fuel v w h hc
    obtain ⟨s, d⟩ := sd
    rw [parseGo] at h
    by_cases hd : d ∈ digits
    · rw [if_pos hd] at h
      cases ha : assignPosibleValues fuel v s d with
      | none => rw [ha] at h; simp at h
      | some v1 =>
        rw [ha] at h
        obtain ⟨hcw, htw⟩ := ih h (assign_clean hc ha)
        exact ⟨hcw, tightens_trans (assign_tightens ha) htw⟩
    · rw [if_neg hd] at h
      exact ih h hc
  
/-- A successfully parsed grid yields a consistent map whose candidate
lists are sublists of the ascending digit list. -/
theorem parseGrid_sound {fuel : Nat} {grid : List Char} {v : Values}
    (h : parseGrid fuel grid = some v) :
    cleanExcept [] v ∧ ∀ t, (v t).Sublist digits := by
  rw [parseGrid] at h
  cases hg : getGridValues grid with
  | none => rw [hg] at h; simp at h
  | some gvs =>
    rw [hg] at h
    obtain ⟨hc, ht⟩ := parseGo_sound h initial_clean
    exact ⟨hc, fun t => ht.1 t⟩

theorem deepSearch_none (fuel : Nat) : deepSearch fuel none = none := by
  cases fuel <;> rfl

/-- Depth-first search: any returned map is consistent, tighter than the
input, and fully determined. -/
theorem search_all : ∀ fuel : Nat,
    (∀ v m, cleanExcept [] v → deepSearch fuel (some v) = some m →
      cleanExcept [] m ∧ Tightens v m ∧ AllSingle m) ∧
    (∀ v s ds m, cleanExcept [] v → searchTrials fuel v s ds = some m →
      cleanExcept [] m ∧ Tightens v m ∧ AllSingle m) := by
  intro fuel
  induction fuel with
  | zero =>
    constructor
    · intro v m _ h; simp [deepSearch] at h
    · intro v s ds m _ h
      cases ds with
      | nil => simp [searchTrials] at h
      | cons d ds => simp [searchTrials] at h
  | succ n ih =>
    obtain ⟨ihD, ihT⟩ := ih
    constructor
    · intro v m hc h
      rw [deepSearch] at h
      by_cases hall : (squares.all (fun square => (v square).length == 1)) = true
      · rw [if_pos hall] at h
        cases h
        refine ⟨hc, tightens_refl v, ?_⟩
        intro s hs
        have := List.all_eq_true.mp hall s hs
        exact beq_iff_eq.mp this
      · rw [if_neg hall] at h
        cases hmin : minCandidate v with
        | none => rw [hmin] at h; simp at h
        | some pair =>
          obtain ⟨k, sq⟩ := pair
          rw [hmin] at h
          exact ihT v sq (v sq) m hc h
    · intro v s ds m hc h
      cases ds with
      | nil => rw [searchTrials] at h; simp at h
      | cons d ds =>
        rw [searchTrials] at h
        cases ha : assignPosibleValues n v s d with
        | none =>
          rw [ha, deepSearch_none] at h
          simp only [] at h
          exact ihT v s ds m hc h
        | some v1 =>
          rw [ha] at h
          cases hds : deepSearch n (some v1) with
          | none =>
            rw [hds] at h
            simp only [] at h
            exact ihT v s ds m hc h
          | some r =>
            rw [hds] at h
            have h2 : r = m := by injection h
            subst h2
            obtain ⟨hcm, htm, ham⟩ := ihD v1 r (assign_clean hc ha) hds
            exact ⟨hcm, tightens_trans (assign_tightens ha) htm, ham⟩

end Norvig
namespace Norvig

theorem digit_singleton_count :
    ∀ d ∈ digits, List.countP (fun x => x == [d]) (digits.map fun e => [e]) = 1 := by
  decide

/-- The counting argument: a fully-determined consistent map places each
digit exactly once in each unit. -/
theorem unit_exactly_once {m : Values} (hall : ∀ s ∈ squares, ∃ e ∈ digits, m s = [e])
    (hc : cleanExcept [] m) :
    ∀ u ∈ unitlist, ∀ d ∈ digits, occurrences m u d = 1 := by
  intro u hu d hd
  have hcard := unit_card u hu
  have hsubsq := unit_sub_squares u hu
  have hinj : ∀ x ∈ u, ∀ y ∈ u, m x = m y → x = y := by
    intro x hx y hy hxy
    by_contra hne
    obtain ⟨e, hed, hex⟩ := hall x (hsubsq x hx)
    have hpeer : y ∈ peers x := unit_peers u hu x hx y hy hne
    have : e ∉ m y := hc x (by simp) e hex y hpeer
    rw [← hxy, hex] at this
    simp at this
  have hnodup : (u.map m).Nodup := List.Nodup.map_on hinj hcard.2
  have hsubset : (u.map m) ⊆ digits.map fun e => [e] := by
    intro x hx
    obtain ⟨s, hs, hsx⟩ := List.mem_map.mp hx
    obtain ⟨e, hed, hse⟩ := hall s (hsubsq s hs)
    exact List.mem_map.mpr ⟨e, hed, by rw [← hsx, hse]⟩
  have hperm : (u.map m).Perm (digits.map fun e => [e]) := by
    refine List.Subperm.perm_of_length_le (List.Nodup.subperm hnodup hsubset) ?_
    simp [hcard.1, digits]
  calc occurrences m u d
      = List.countP ((fun x => x == [d]) ∘ m) u :=
        (List.countP_eq_length_filter _ _).symm
    _ = List.countP (fun x => x == [d]) (u.map m) := (List.countP_map _ m u).symm
    _ = List.countP (fun x => x == [d]) (digits.map fun e => [e]) :=
        hperm.countP_eq _
    _ = 1 := digit_singleton_count d hd

/-- C1: for every input grid for which `solve` returns a solved map, the
result is a fully consistent solution — every one of the 81 cells is
determined to a single digit 1-9 and every one of the 27 units contains
each digit exactly once; a failed solve carries no obligation. -/
theorem C1_solve_valid : ∀ fuel grid, solvedOk (solve fuel grid) := by
  intro fuel grid
  rw [solve]
  cases hp : parseGrid fuel grid with
  | none => rw [deepSearch_none]; exact trivial
  | some v =>
    cases hds : deepSearch fuel (some v) with
    | none => exact trivial
    | some mm =>
      obtain ⟨hcv, hsubv⟩ := parseGrid_sound hp
      obtain ⟨hcm, htm, ham⟩ := (search_all fuel).1 v mm hcv hds
      have hall : ∀ s ∈ squares, ∃ e ∈ digits, mm s = [e] := by
        intro s hs
        obtain ⟨e, he⟩ := List.length_eq_one.mp (ham s hs)
        refine ⟨e, ?_, he⟩
        have hsubd : (mm s).Sublist digits := (htm.1 s).trans (hsubv s)
        rw [he] at hsubd
        exact hsubd.subset (List.mem_singleton_self e)
      exact ⟨hall, unit_exactly_once hall hcm⟩

end Norvig
namespace Norvig

/-! ### C8: the peer invariant -/

/-- C8: in the topology built at construction, every one of the 81 squares
has exactly 20 peers and is not its own peer. -/
theorem C8_peer_invariant : ∀ s ∈ squares, (peers s).length = 20 ∧ s ∉ peers s := by
  decide

theorem C8_peer_invariant_witness :
    "A1" ∈ squares ∧ (peers "A1").length = 20 ∧ "A1" ∉ peers "A1" := by
  refine ⟨by decide, ?_⟩
  exact C8_peer_invariant "A1" (by decide)

/-! ### C4: when the grid parser rejects its input -/

/-- C4 counterexample: an 82-character string containing a character
outside the accepted alphabet, which the claim says must fail with a
ParseError, is accepted by `getGridValues`, because the code first discards
unrecognised characters and only then checks that 81 remain. -/
theorem C4_parse_cex :
    overlongGrid.length ≠ 81 ∧ 'X' ∈ overlongGrid ∧ 'X' ∉ digits ∧
    'X' ∉ ['0', '.'] ∧ (getGridValues overlongGrid).isSome = true := by
  decide

/-- C4 amended: the parser fails with a ParseError exactly when the number
of accepted characters (digits 1-9, '0' and '.') left after discarding all
other characters differs from 81; otherwise parsing proceeds. -/
theorem C4_parse_amended (grid : List Char) :
    getGridValues grid = none ↔
    (grid.filter (fun c => c ∈ digits ∨ c ∈ ['0', '.'])).length ≠ 81 := by
  rw [getGridValues]
  by_cases h : (grid.filter (fun c => c ∈ digits ∨ c ∈ ['0', '.'])).length = 81
  · simp [h]
  · simp [h]

theorem C4_parse_amended_witness : getGridValues shortGrid = none :=
  (C4_parse_amended shortGrid).mpr (by decide)

/-! ### C10: Assign of a digit that is not a candidate -/

/-- C10 counterexample: on a square whose candidate set is already empty,
Assign of a non-candidate digit succeeds (there is nothing to eliminate)
instead of signalling contradiction. -/
theorem C10_assign_cex :
    '1' ∉ emptyA1Values "A1" ∧
    (assignPosibleValues 1 emptyA1Values "A1" '1').isSome = true := by
  decide

/-- C10 amended: for every map, square and digit `d` such that `d` is not
among the square's candidates and the candidate set is nonempty, Assign
signals contradiction: eliminating every other digit would empty the
square, which propagation detects. -/
theorem C10_assign_missing :
    ∀ fuel (v : Values) s d, d ∉ v s → v s ≠ [] →
    assignPosibleValues fuel v s d = none := by
  intro fuel v s d hd hne
  cases fuel with
  | zero => rfl
  | succ n =>
    rw [assignPosibleValues]
    have hov : (v s).filter (fun c => c ≠ d) = v s := by
      apply List.filter_eq_self.mpr
      intro a ha
      have : a ≠ d := fun had => hd (had ▸ ha)
      simpa using this
    rw [hov]
    cases he : elimDigits n v s (v s) with
    | none => rfl
    | some w =>
      exfalso
      have hpost := elimDigits_post he
      have ht := elimDigits_tightens he
      have hwne : w s ≠ [] := ht.2 s hne
      obtain ⟨y, hy⟩ := List.exists_mem_of_ne_nil (w s) hwne
      exact hpost y ((ht.1 s).subset hy) hy

theorem C10_assign_missing_witness :
    assignPosibleValues 5 initialValues "A1" 'x' = none :=
  C10_assign_missing 5 initialValues "A1" 'x' (by decide) (by decide)

/-! ### C2: the per-puzzle pipeline on an unsolvable puzzle -/

/-- C2: whenever `solve` reports failure, the result-extraction step of the
per-puzzle pipeline (`timeSolve` calling `getMatrix`) does not produce an
explicit failure value — it raises a `TypeError` (`sorted(dict.items(False))`),
aborting the run.  This contradicts the claim that a merely-unsolvable
puzzle never causes an unrecoverable error. -/
theorem C2_pipeline_abort : ∀ fuel grid, solve fuel grid = none →
    getMatrix (solve fuel grid)
      = Except.error "TypeError: descriptor items requires a dict" := by
  intro fuel grid h
  rw [h]
  rfl

theorem C2_pipeline_abort_witness :
    getMatrix (solve 100 [])
      = Except.error "TypeError: descriptor items requires a dict" :=
  C2_pipeline_abort 100 [] rfl

/-! ### C9: determinism and fixed candidate order -/

/-- C9: solving is deterministic — the embedded solve path is a pure
function (the `shuffled` utility of the source is not invoked anywhere on
it), so repeated solves of one grid give identical results; moreover the
digit list is sorted ascending and every candidate list that the parser or
a propagated assignment can produce is a sublist of it, so candidate
digits are always tried in fixed ascending order. -/
theorem C9_deterministic_order :
    (∀ fuel grid, solve fuel grid = solve fuel grid) ∧
    List.Pairwise (fun a b => a < b) digits ∧
    (∀ fuel grid v, parseGrid fuel grid = some v → ∀ t, (v t).Sublist digits) ∧
    (∀ fuel (v : Values) s d w, (∀ t, (v t).Sublist digits) →
      assignPosibleValues fuel v s d = some w → ∀ t, (w t).Sublist digits) := by
  refine ⟨fun _ _ => rfl, by decide, ?_, ?_⟩
  · intro fuel grid v h t
    exact (parseGrid_sound h).2 t
  · intro fuel v s d w hsub ha t
    exact ((assign_tightens ha).1 t).trans (hsub t)

theorem C9_deterministic_order_witness :
    (initialValues "A1").Sublist digits :=
  C9_deterministic_order.2.2.1 10 dotsGrid initialValues rfl "A1"

end Norvig
namespace Norvig

/-! ### C6: Eliminate, empty-set contradiction, singleton peer cascade -/

/-- C6: Eliminate removes the digit from the square's candidate list if
present (and is the identity otherwise, handing the unchanged map back);
after the removal, an emptied candidate list signals contradiction, a list
reduced to the single digit `e` triggers the recursive elimination of `e`
from every peer of the square, and any failure of that cascade (a `none`
from any step of `elimPeers`) propagates upward. -/
theorem C6_eliminate_cascade : ∀ fuel (v : Values) s d,
    (d ∉ v s → eliminate (fuel+1) v s d = some v) ∧
    (d ∈ v s → eliminate (fuel+1) v s d =
      match reviewNextDigit fuel (updateValues v s ((v s).filter (fun c => c ≠ d))) s with
      | none => none
      | some v3 => reviewUnit fuel v3 s d) ∧
    (v s = [] → reviewNextDigit (fuel+1) v s = none) ∧
    (∀ e, v s = [e] → reviewNextDigit (fuel+1) v s = elimPeers fuel v (peers s) e) ∧
    (∀ e, elimPeers fuel v [] e = some v) ∧
    (∀ e p ps, elimPeers (fuel+1) v (p :: ps) e =
      match eliminate fuel v p e with
      | none => none
      | some v1 => elimPeers fuel v1 ps e) := by
  intro fuel v s d
  refine ⟨?_, ?_, ?_, ?_, ?_, ?_⟩
  · intro hd; rw [eliminate, if_neg hd]
  · intro hd; rw [eliminate, if_pos hd]
  · intro h; rw [reviewNextDigit, h]
  · intro e h; rw [reviewNextDigit, h]
  · intro e; cases fuel <;> rfl
  · intro e p ps; rfl

theorem C6_eliminate_cascade_witness :
    eliminate 4 initialValues "A1" 'x' = some initialValues ∧
    reviewNextDigit 4 emptyA1Values "A1" = none ∧
    reviewNextDigit 4 singleA1Values "A1"
      = elimPeers 3 singleA1Values (peers "A1") '5' := by
  refine ⟨?_, ?_, ?_⟩
  · exact (C6_eliminate_cascade 3 initialValues "A1" 'x').1 (by decide)
  · exact (C6_eliminate_cascade 3 emptyA1Values "A1" '1').2.2.1 (by decide)
  · exact (C6_eliminate_cascade 3 singleA1Values "A1" '1').2.2.2.1 '5' (by decide)

/-! ### C7: Assign -/

/-- C7: Assign forces the square to the digit by running Eliminate once for
each other candidate digit, one at a time, each on the map produced by the
previous one; the empty run returns the map unchanged, a failing Eliminate
aborts the whole run with contradiction, and in a successful run every
other candidate digit of the square has really been eliminated. -/
theorem C7_assign_eliminates : ∀ fuel (v : Values) s d,
    (assignPosibleValues (fuel+1) v s d
      = elimDigits fuel v s ((v s).filter (fun c => c ≠ d))) ∧
    (∀ w : Values, elimDigits fuel v s [] = some w ↔ w = v) ∧
    (∀ x ds, elimDigits (fuel+1) v s (x :: ds)
      = match eliminate fuel v s x with
        | none => none
        | some v1 => elimDigits fuel v1 s ds) ∧
    (∀ w, assignPosibleValues (fuel+1) v s d = some w → ∀ x ∈ v s, x ≠ d → x ∉ w s) := by
  intro fuel v s d
  refine ⟨rfl, ?_, fun x ds => rfl, ?_⟩
  · intro w
    cases fuel <;>
      (rw [elimDigits];
       exact ⟨fun h => by injection h with h2; exact h2.symm, fun h => by rw [h]⟩)
  · intro w h x hx hxd
    rw [assignPosibleValues] at h
    exact elimDigits_post h x (List.mem_filter.mpr ⟨hx, by simpa using hxd⟩)

theorem C7_assign_eliminates_witness :
    ∃ w : Values, assignPosibleValues 30 quietValues "A1" '1' = some w ∧ '2' ∉ w "A1" := by
  have hiss : (assignPosibleValues 30 quietValues "A1" '1').isSome = true := by decide
  refine ⟨(assignPosibleValues 30 quietValues "A1" '1').get hiss,
    (Option.some_get hiss).symm, ?_⟩
  exact (C7_assign_eliminates 29 quietValues "A1" '1').2.2.2 _
    (Option.some_get hiss).symm '2' (by decide) (by decide)

/-! ### C3: unit propagation after an elimination -/

/-- C3: after Eliminate removes a digit from a square, the units of that
square are reviewed in order: a unit in which the digit has no remaining
place signals contradiction; a unit in which exactly one square still
admits the digit forces that square to the digit through Assign, whose
failure propagates upward; units with two or more places are skipped. -/
theorem C3_unit_places : ∀ fuel (v : Values) s d,
    (d ∈ v s → eliminate (fuel+1) v s d =
      match reviewNextDigit fuel (updateValues v s ((v s).filter (fun c => c ≠ d))) s with
      | none => none
      | some v3 => reviewUnit fuel v3 s d) ∧
    (reviewUnit (fuel+1) v s d = reviewUnitGo fuel v (units s) d) ∧
    (∀ u rest, u.filter (fun sq => d ∈ v sq) = [] →
      reviewUnitGo (fuel+1) v (u :: rest) d = none) ∧
    (∀ u rest p, u.filter (fun sq => d ∈ v sq) = [p] →
      reviewUnitGo (fuel+1) v (u :: rest) d =
        match assignPosibleValues fuel v p d with
        | none => none
        | some v1 => reviewUnitGo fuel v1 rest d) ∧
    (∀ u rest p q others, u.filter (fun sq => d ∈ v sq) = p :: q :: others →
      reviewUnitGo (fuel+1) v (u :: rest) d = reviewUnitGo fuel v rest d) := by
  intro fuel v s d
  refine ⟨?_, rfl, ?_, ?_, ?_⟩
  · intro hd; rw [eliminate, if_pos hd]
  · intro u rest h; rw [reviewUnitGo]; simp only [h]
  · intro u rest p h; rw [reviewUnitGo]; simp only [h]
  · intro u rest p q others h; rw [reviewUnitGo]; simp only [h]

theorem C3_unit_places_witness :
    reviewUnitGo 3 colNoOneValues (colUnit :: []) '1' = none ∧
    reviewUnitGo 3 colTailNoOneValues (colUnit :: []) '1'
      = (match assignPosibleValues 2 colTailNoOneValues "A1" '1' with
         | none => none
         | some v1 => reviewUnitGo 2 v1 [] '1') ∧
    reviewUnitGo 3 initialValues (colUnit :: []) '1' = reviewUnitGo 2 initialValues [] '1' := by
  refine ⟨?_, ?_, ?_⟩
  · exact (C3_unit_places 2 colNoOneValues "A1" '1').2.2.1 colUnit [] (by decide)
  · exact (C3_unit_places 2 colTailNoOneValues "A1" '1').2.2.2.1 colUnit [] "A1" (by decide)
  · exact (C3_unit_places 2 initialValues "A1" '1').2.2.2.2 colUnit [] "A1" "B1"
      ["C1", "D1", "E1", "F1", "G1", "H1", "I1"] (by decide)

end Norvig
namespace Norvig

/-! ### C5: the branching strategy of the search engine -/

/-- Case analysis of one step of the minimum fold of `deepSearch`. -/
theorem minStep_cases (v : Values) (acc : Option (Nat × String)) (s : String) :
    (¬ 1 < (v s).length ∧ minStep v acc s = acc) ∨
    (1 < (v s).length ∧ acc = none ∧ minStep v acc s = some ((v s).length, s)) ∨
    (∃ n0 t0, 1 < (v s).length ∧ acc = some (n0, t0) ∧
      ((minStep v acc s = some ((v s).length, s) ∧ (v s).length ≤ n0) ∨
       (minStep v acc s = acc ∧ n0 ≤ (v s).length))) := by
  by_cases hs : 1 < (v s).length
  · cases acc with
    | none =>
      refine Or.inr (Or.inl ⟨hs, rfl, ?_⟩)
      simp [minStep, hs]
    | some pair =>
      obtain ⟨n0, t0⟩ := pair
      by_cases hcond : (v s).length < n0 ∨ ((v s).length = n0 ∧ s < t0)
      · refine Or.inr (Or.inr ⟨n0, t0, hs, rfl, Or.inl ⟨?_, ?_⟩⟩)
        · rw [minStep.eq_def, if_pos hs]
          show (if (v s).length < n0 ∨ ((v s).length = n0 ∧ s < t0)
              then some ((v s).length, s) else some (n0, t0)) = some ((v s).length, s)
          rw [if_pos hcond]
        · rcases hcond with h | h <;> omega
      · refine Or.inr (Or.inr ⟨n0, t0, hs, rfl, Or.inr ⟨?_, ?_⟩⟩)
        · rw [minStep.eq_def, if_pos hs]
          show (if (v s).length < n0 ∨ ((v s).length = n0 ∧ s < t0)
              then some ((v s).length, s) else some (n0, t0)) = some (n0, t0)
          rw [if_neg hcond]
        · have h1 : ¬ (v s).length < n0 := fun hlt => hcond (Or.inl hlt)
          omega
  · refine Or.inl ⟨hs, ?_⟩
    simp [minStep, hs]

/-- Specification of the minimum fold of `deepSearch`: a `some` result names
an undetermined square of minimal candidate-list length among those
scanned, a `none` result means no square qualified. -/
theorem minFold_spec (v : Values) : ∀ (L : List String) (acc : Option (Nat × String)),
    (∀ n t, acc = some (n, t) → (v t).length = n ∧ 1 < n) →
    (∀ k sq, L.foldl (minStep v) acc = some (k, sq) →
      (v sq).length = k ∧ 1 < k ∧
      (acc = some (k, sq) ∨ sq ∈ L) ∧
      (∀ t ∈ L, 1 < (v t).length → k ≤ (v t).length) ∧
      (∀ n t, acc = some (n, t) → k ≤ n)) ∧
    (L.foldl (minStep v) acc = none → acc = none ∧ ∀ t ∈ L, ¬ 1 < (v t).length) := by
  intro L
  induction L with
  | nil =>
    intro acc hacc
    constructor
    · intro k sq hfold
      rw [List.foldl_nil] at hfold
      obtain ⟨h1, h2⟩ := hacc k sq hfold
      refine ⟨h1, h2, Or.inl hfold, by simp, ?_⟩
      intro n t hacc2
      rw [hfold] at hacc2
      injection hacc2 with h3
      injection h3 with h4 h5
      omega
    · intro hfold
      rw [List.foldl_nil] at hfold
      exact ⟨hfold, by simp⟩
  | cons s L ih =>
    intro acc hacc
    rw [List.foldl_cons]
    rcases minStep_cases v acc s with ⟨hs, heq⟩ | ⟨hs, haccn, heq⟩ |
      ⟨n0, t0, hs, hacc0, hrep⟩
    · -- the square s is determined or has one candidate: it is skipped
      rw [heq]
      obtain ⟨ihs, ihn⟩ := ih acc hacc
      constructor
      · intro k sq hfold
        obtain ⟨h1, h2, h3, h4, h5⟩ := ihs k sq hfold
        refine ⟨h1, h2, ?_, ?_, h5⟩
        · rcases h3 with h3 | h3
          · exact Or.inl h3
          · exact Or.inr (List.mem_cons_of_mem s h3)
        · intro t ht hlt
          rcases List.mem_cons.mp ht with h8 | h8
          · subst h8; exact absurd hlt hs
          · exact h4 t h8 hlt
      · intro hfold
        obtain ⟨h1, h2⟩ := ihn hfold
        refine ⟨h1, ?_⟩
        intro t ht
        rcases List.mem_cons.mp ht with h8 | h8
        · subst h8; exact hs
        · exact h2 t h8
    · -- accumulator was empty: s becomes the running minimum
      rw [heq]
      have hacc2 : ∀ n t, (some ((v s).length, s) : Option (Nat × String)) = some (n, t) →
          (v t).length = n ∧ 1 < n := by
        intro n t h
        injection h with h3
        injection h3 with h4 h5
        subst h5
        exact ⟨h4.symm ▸ rfl, h4 ▸ hs⟩
      obtain ⟨ihs, ihn⟩ := ih (some ((v s).length, s)) hacc2
      constructor
      · intro k sq hfold
        obtain ⟨h1, h2, h3, h4, h5⟩ := ihs k sq hfold
        have h6 : k ≤ (v s).length := h5 _ _ rfl
        refine ⟨h1, h2, ?_, ?_, ?_⟩
        · rcases h3 with h3 | h3
          · injection h3 with h7
            injection h7 with h8 h9
            exact Or.inr (h9 ▸ List.mem_cons_self s L)
          · exact Or.inr (List.mem_cons_of_mem s h3)
        · intro t ht hlt
          rcases List.mem_cons.mp ht with h8 | h8
          · subst h8; exact h6
          · exact h4 t h8 hlt
        · intro n t h
          rw [haccn] at h
          cases h
      · intro hfold
        obtain ⟨h7, _⟩ := ihn hfold
        cases h7
    · rcases hrep with ⟨heq, hle⟩ | ⟨heq, hge⟩
      · -- s replaces the running minimum
        rw [heq]
        have hacc2 : ∀ n t, (some ((v s).length, s) : Option (Nat × String)) = some (n, t) →
            (v t).length = n ∧ 1 < n := by
          intro n t h
          injection h with h3
          injection h3 with h4 h5
          subst h5
          exact ⟨h4.symm ▸ rfl, h4 ▸ hs⟩
        obtain ⟨ihs, ihn⟩ := ih (some ((v s).length, s)) hacc2
        constructor
        · intro k sq hfold
          obtain ⟨h1, h2, h3, h4, h5⟩ := ihs k sq hfold
          have h6 : k ≤ (v s).length := h5 _ _ rfl
          refine ⟨h1, h2, ?_, ?_, ?_⟩
          · rcases h3 with h3 | h3
            · injection h3 with h7
              injection h7 with h8 h9
              exact Or.inr (h9 ▸ List.mem_cons_self s L)
            · exact Or.inr (List.mem_cons_of_mem s h3)
          · intro t ht hlt
            rcases List.mem_cons.mp ht with h8 | h8
            · subst h8; exact h6
            · exact h4 t h8 hlt
          · intro n t h
            rw [hacc0] at h
            injection h with h7
            injection h7 with h8 h9
            omega
        · intro hfold
          obtain ⟨h7, _⟩ := ihn hfold
          cases h7
      · -- the running minimum is kept
        rw [heq]
        obtain ⟨ihs, ihn⟩ := ih acc hacc
        constructor
        · intro k sq hfold
          obtain ⟨h1, h2, h3, h4, h5⟩ := ihs k sq hfold
          have h6 : k ≤ n0 := h5 _ _ hacc0
          refine ⟨h1, h2, ?_, ?_, h5⟩
          · rcases h3 with h3 | h3
            · exact Or.inl h3
            · exact Or.inr (List.mem_cons_of_mem s h3)
          · intro t ht hlt
            rcases List.mem_cons.mp ht with h8 | h8
            · subst h8; omega
            · exact h4 t h8 hlt
        · intro hfold
          obtain ⟨h7, _⟩ := ihn hfold
          rw [hacc0] at h7
          cases h7

end Norvig
namespace Norvig

/-- C5: on a map that is not a contradiction signal and still has an
undetermined square, `deepSearch` selects a square of minimal candidate-list
size among the undetermined ones (the tie between equal sizes is broken by
the fixed lexicographically-smallest `(size, square)` pair of the
deterministic fold `minCandidate`), tries each digit of that square's
candidate list in its fixed order by assigning it on the (immutable) map
and recursing, returns the first success, and returns contradiction when
every candidate fails. -/
theorem C5_search_branching : ∀ fuel (v : Values),
    (∃ s ∈ squares, 1 < (v s).length) →
    ∃ k sq, minCandidate v = some (k, sq) ∧ sq ∈ squares ∧ (v sq).length = k ∧
      1 < k ∧
      (∀ t ∈ squares, 1 < (v t).length → k ≤ (v t).length) ∧
      deepSearch (fuel+1) (some v) = searchTrials fuel v sq (v sq) ∧
      searchTrials fuel v sq [] = none ∧
      (∀ x ds, searchTrials (fuel+1) v sq (x :: ds)
        = match deepSearch fuel (assignPosibleValues fuel v sq x) with
          | some r => some r
          | none => searchTrials fuel v sq ds) := by
  intro fuel v hex
  cases hmin : minCandidate v with
  | none =>
    exfalso
    obtain ⟨s, hs, hlen⟩ := hex
    rw [minCandidate] at hmin
    exact ((minFold_spec v squares none (by intro n t h; cases h)).2 hmin).2 s hs hlen
  | some pair =>
    obtain ⟨k, sq⟩ := pair
    have hmin2 : squares.foldl (minStep v) none = some (k, sq) := by
      rw [minCandidate] at hmin
      exact hmin
    obtain ⟨hlen, hk, hmem, hminim, _⟩ :=
      (minFold_spec v squares none (by intro n t h; cases h)).1 k sq hmin2
    have hsq : sq ∈ squares := by
      rcases hmem with h | h
      · cases h
      · exact h
    refine ⟨k, sq, rfl, hsq, hlen, hk, hminim, ?_, ?_, ?_⟩
    · rw [deepSearch]
      have hall : ¬ (squares.all (fun square => (v square).length == 1)) = true := by
        intro hall
        obtain ⟨s, hs, hlen1⟩ := hex
        have := beq_iff_eq.mp (List.all_eq_true.mp hall s hs)
        omega
      rw [if_neg hall, hmin]
    · cases fuel <;> rfl
    · intro x ds; rfl

theorem C5_search_branching_witness :
    ∃ k sq, minCandidate initialValues = some (k, sq) ∧ sq ∈ squares ∧
      (initialValues sq).length = k ∧ 1 < k ∧
      (∀ t ∈ squares, 1 < (initialValues t).length → k ≤ (initialValues t).length) ∧
      deepSearch 4 (some initialValues) = searchTrials 3 initialValues sq (initialValues sq) ∧
      searchTrials 3 initialValues sq [] = none ∧
      (∀ x ds, searchTrials 4 initialValues sq (x :: ds)
        = match deepSearch 3 (assignPosibleValues 3 initialValues sq x) with
          | some r => some r
          | none => searchTrials 3 initialValues sq ds) :=
  C5_search_branching 3 initialValues ⟨"A1", by decide, by decide⟩

end Norvig
